import Mathlib

/-!
Verification of the `document-summarizer` chunking pipeline
(`skills/summarize/scripts/chunk_document.py`) against its specification.

The Python source is shallowly embedded: the pure chunking functions become
Lean functions over `List Char` / `String` / `Nat`.  Embedding conventions:

* Python `int` token counts, page numbers and budgets are `Nat` (all the
  quantities involved are non-negative in the source).
* Confidence values (floats drawn from {0.0, 0.3, 0.7, 0.8, 0.85, 0.9,
  0.95, 1.0}) are embedded as `Nat` percentages {0, 30, 70, 80, 85, 90,
  95, 100}; every comparison the source performs on them is exact at these
  values, so the scaling is faithful.
* The float expression `max_tokens * 0.8` (merge heuristic) and
  `(char_offset / total_chars) * total_pages` (page estimation) are embedded
  as exact rational arithmetic on `Nat` (`* 5 < … * 4`, resp. a floor
  division).  All concrete inputs used in theorems below sit far from the
  floating-point rounding boundaries of these expressions.
* Python regular expressions (`re`) are embedded as hand-written parsers
  over `List Char`; each parser is annotated with the regex it implements
  and follows its backtracking semantics (all the regexes involved are
  deterministic, as argued in comments).  Character classes `\s`, `\d`,
  `[A-Z]` are taken at their ASCII meaning.
* The `tiktoken` encoder is an optional external collaborator; the module
  under verification is its always-available fallback
  `count_tokens(text) = len(text) // 4`.
-/

namespace DocChunk

/-! ## Character classes (ASCII reading of Python `\s`, `\d`, `[A-Z]`) -/

/-- Python `\s` / `str.strip()` whitespace, ASCII part:
space, tab, newline, carriage return, vertical tab, form feed. -/
def isWsChar (c : Char) : Bool :=
  c = ' ' || c = '\t' || c = '\n' || c = '\r' || c = '\x0b' || c = '\x0c'

/-- Python `\d`, ASCII part: `[0-9]`. -/
def isDigitChar (c : Char) : Bool :=
  '0' ≤ c && c ≤ '9'

/-- Regex class `[A-Z]`. -/
def isUpperChar (c : Char) : Bool :=
  'A' ≤ c && c ≤ 'Z'

/-- Regex class `[a-z]` (used to embed Python `text == text.upper()`). -/
def isLowerChar (c : Char) : Bool :=
  'a' ≤ c && c ≤ 'z'

/-! ## Token estimator (`count_tokens`, chunk_document.py lines 35-36)

The fallback estimator used when `tiktoken` is unavailable:
`len(text) // 4`. -/

/-- `count_tokens(text) = len(text) // 4` (source lines 35-36). -/
def count_tokens (s : String) : Nat :=
  s.length / 4

/-- Modelled from the spec (§4.6): `max(1, length_in_characters // 4)`.
This definition follows the spec's words, for comparison with the
source's `count_tokens`. -/
def count_tokens_spec (s : String) : Nat :=
  max 1 (s.length / 4)

/-! ## Python string helpers -/

/-- Python `str.strip()` (ASCII whitespace). -/
def pyStrip (s : String) : String :=
  ⟨((s.data.dropWhile isWsChar).reverse.dropWhile isWsChar).reverse⟩

/-- Sum of token estimates over a list of sentence strings. -/
def sumTokens (l : List String) : Nat :=
  (l.map count_tokens).sum

/-! ## Sentence splitting (`re.split(r'(?<=[.!?])\s+', text)`, line 338)

A split point is a maximal whitespace run immediately preceded by one of
`.`, `!`, `?`; the whitespace is consumed.  `re.split` always returns at
least one (possibly empty) piece. -/

/-- Is the char one of the sentence-ending chars `[.!?]`? -/
def isSentEnd (c : Char) : Bool :=
  c = '.' || c = '!' || c = '?'

/-- Worker for `splitSentences`: `acc` is the sentence accumulated so far,
`skipping` is true while consuming the whitespace run of a split point
(in that mode `acc` is empty). -/
def splitSentencesAux : List Char → List Char → Bool → List (List Char)
  | [], acc, _ => [acc]
  | c :: rest, acc, skipping =>
    if skipping && isWsChar c then
      splitSentencesAux rest acc true
    else if isSentEnd c && (match rest with | r :: _ => isWsChar r | [] => false) then
      (acc ++ [c]) :: splitSentencesAux rest [] true
    else
      splitSentencesAux rest (acc ++ [c]) false

/-- `re.split(r'(?<=[.!?])\s+', text)` (source line 338). -/
def splitSentences (text : String) : List String :=
  (splitSentencesAux text.data [] false).map (fun cs => ⟨cs⟩)

/-! ## Token-based sentence splitter (`split_text_by_tokens`, lines 336-363) -/

/-- Overlap-seed computation (source lines 347-354): walk backward through
the sentences of the just-finalized chunk, prepending each while the
accumulated token count stays within the `overlap` budget; stop at the
first sentence that would exceed it.  The input here is
`current.reverse`; returns `(overlap_parts, overlap_tokens)`. -/
def overlapLoop (ov : Nat) : List String → List String × Nat → List String × Nat
  | [], acc => acc
  | s :: rest, (parts, otok) =>
    let st := count_tokens s
    if otok + st > ov then (parts, otok)
    else overlapLoop ov rest (s :: parts, otok + st)

/-- `overlap_parts` / `overlap_tokens` as computed from a just-finalized
chunk `current` (source lines 347-354). -/
def overlapParts (ov : Nat) (current : List String) : List String × Nat :=
  overlapLoop ov current.reverse ([], 0)

/-- Main accumulation loop of `split_text_by_tokens` (source lines 343-361),
including the final flush of a non-empty `current`. -/
def sbtLoop (maxT ov : Nat) : List String → List String → Nat → List String
  | [], current, _ =>
    if current = [] then [] else [String.intercalate " " current]
  | s :: rest, current, curTok =>
    let st := count_tokens s
    if maxT < curTok + st ∧ current ≠ [] then
      String.intercalate " " current ::
        (let seed := overlapParts ov current
         sbtLoop maxT ov rest (seed.1 ++ [s]) (seed.2 + st))
    else
      sbtLoop maxT ov rest (current ++ [s]) (curTok + st)

/-- `split_text_by_tokens(text, max_tokens, overlap)` (source lines 336-363). -/
def split_text_by_tokens (text : String) (maxT ov : Nat) : List String :=
  let chunks := sbtLoop maxT ov (splitSentences text) [] 0
  if chunks = [] then [text] else chunks

/-! ## Structural section patterns (`SECTION_PATTERNS`, lines 255-261)

Each regex starts with `^\s*`; the body parsers below consume the input
after that whitespace has been dropped.  Confidence weights are scaled by
100: 0.9 → 90, 0.85 → 85, 0.8 → 80, 0.95 → 95. -/

/-- Roman-numeral letters `[IVXLCDM]`. -/
def isRomanChar (c : Char) : Bool :=
  c = 'I' || c = 'V' || c = 'X' || c = 'L' || c = 'C' || c = 'D' || c = 'M'

/-- Regex fragment `\s+\S`: at least one whitespace char, then some
non-whitespace char (the rest of the line is unconstrained).  `\s+` is
effectively maximal-munch here since a failing shorter run would still
face a whitespace char where `\S` is required. -/
def wsThenNonWs (cs : List Char) : Bool :=
  match cs with
  | c :: _ => isWsChar c && !(cs.dropWhile isWsChar).isEmpty
  | [] => false

/-- Regex fragment `\s+[cls]`: a whitespace run, then at least one char of
the class (one suffices, the rest of the line is unconstrained). -/
def wsThenClass (cls : Char → Bool) (cs : List Char) : Bool :=
  match cs with
  | c :: _ =>
    isWsChar c && (match cs.dropWhile isWsChar with | d :: _ => cls d | [] => false)
  | [] => false

/-- Scanner for `(\d+\.)+\s+\S` after its first digit was consumed.
`inDigits = true`: inside the digit run of a group (more digits may
follow; a `.` closes the group).  `inDigits = false`: a group was just
closed; either a new group starts (next char a digit) or the `\s+\S`
tail must match here.  The regex is deterministic: a group starts with
a digit, the tail with whitespace, and a digit run can only end at the
group's dot. -/
def p1Scan : List Char → Bool → Bool
  | [], _ => false
  | c :: cs, true =>
    if isDigitChar c then p1Scan cs true
    else if c = '.' then p1Scan cs false
    else false
  | c :: cs, false =>
    if isDigitChar c then p1Scan cs true
    else wsThenNonWs (c :: cs)

/-- Regex body `(\d+\.)+\s+\S` (pattern 1, confidence 0.9): at least one
digit, then the scanner above. -/
def p1Core : List Char → Bool
  | [] => false
  | c :: cs => isDigitChar c && p1Scan cs true

/-- Continuation of `[IVXLCDM]+\.` after one roman char: consume roman
chars; at the first non-roman char require `.` then `\s+\S`.
Deterministic: `.` is not a roman char, so the dot can only sit at the
end of the maximal roman run. -/
def p2After : List Char → Bool
  | [] => false
  | c :: cs =>
    if isRomanChar c then p2After cs else if c = '.' then wsThenNonWs cs else false

/-- Regex body `[IVXLCDM]+\.\s+\S` (pattern 2, confidence 0.85). -/
def p2Core : List Char → Bool
  | [] => false
  | c :: cs => isRomanChar c && p2After cs

/-- Regex body `[A-Z]\.\s+\S` (pattern 3, confidence 0.8). -/
def p3Core : List Char → Bool
  | c :: d :: cs => isUpperChar c && d = '.' && wsThenNonWs cs
  | _ => false

/-- Match a fixed sequence of per-char predicates; on success return the
rest of the input. -/
def matchSeq : List (Char → Bool) → List Char → Option (List Char)
  | [], cs => some cs
  | _ :: _, [] => none
  | p :: ps, c :: cs => if p c then matchSeq ps cs else none

/-- A word matched case-insensitively (`re.IGNORECASE`, ASCII): each char
equals its lowercase or uppercase form. -/
def ciWord (lower upper : String) : List (Char → Bool) :=
  (lower.data.zip upper.data).map (fun p c => c = p.1 || c = p.2)

/-- A word matched exactly. -/
def exactWord (w : String) : List (Char → Bool) :=
  w.data.map (fun x c => c = x)

/-- Class `[\dIVXLCDM]` under `re.IGNORECASE`: digits and roman letters of
either case. -/
def isP4Class (c : Char) : Bool :=
  isDigitChar c || isRomanChar c ||
    c = 'i' || c = 'v' || c = 'x' || c = 'l' || c = 'c' || c = 'd' || c = 'm'

/-- Class `[\dIVXLCDM]` (case-sensitive). -/
def isP5Class (c : Char) : Bool :=
  isDigitChar c || isRomanChar c

/-- Regex body `(Section|Article|Chapter|Part)\s+[\dIVXLCDM]+` with
`re.IGNORECASE` (pattern 4, confidence 0.95).  The alternatives have
distinct first letters, so the alternation is deterministic. -/
def p4Core (cs : List Char) : Bool :=
  [ciWord "section" "SECTION", ciWord "article" "ARTICLE",
   ciWord "chapter" "CHAPTER", ciWord "part" "PART"].any fun w =>
    match matchSeq w cs with
    | some r => wsThenClass isP4Class r
    | none => false

/-- Regex body `(ARTICLE|SECTION|CHAPTER|PART)\s+[\dIVXLCDM]+`
(pattern 5, confidence 0.95). -/
def p5Core (cs : List Char) : Bool :=
  [exactWord "ARTICLE", exactWord "SECTION", exactWord "CHAPTER", exactWord "PART"].any
    fun w =>
      match matchSeq w cs with
      | some r => wsThenClass isP5Class r
      | none => false

def p1Match (cs : List Char) : Bool := p1Core (cs.dropWhile isWsChar)
def p2Match (cs : List Char) : Bool := p2Core (cs.dropWhile isWsChar)
def p3Match (cs : List Char) : Bool := p3Core (cs.dropWhile isWsChar)
def p4Match (cs : List Char) : Bool := p4Core (cs.dropWhile isWsChar)
def p5Match (cs : List Char) : Bool := p5Core (cs.dropWhile isWsChar)

/-- `SECTION_PATTERNS` (source lines 255-261), in priority order, with
confidence weights scaled by 100. -/
def SECTION_PATTERNS : List ((List Char → Bool) × Nat) :=
  [(p1Match, 90), (p2Match, 85), (p3Match, 80), (p4Match, 95), (p5Match, 95)]

/-! ## Level inference (`dot_match`, lines 300-303) -/

/-- Class `[\d.]`. -/
def isDotClassChar (c : Char) : Bool :=
  isDigitChar c || c = '.'

/-- Group 1 of `re.match(r"^\s*([\d.]+)", text)`: the maximal leading run
of digits/dots after optional whitespace (empty ⇔ no match). -/
def dotMunch (cs : List Char) : List Char :=
  (cs.dropWhile isWsChar).takeWhile isDotClassChar

/-- Python `str.rstrip(".")`. -/
def rstripDots (cs : List Char) : List Char :=
  (cs.reverse.dropWhile (fun c => c = '.')).reverse

/-- `detected_level` as set by lines 300-303: if `dot_match` succeeds,
`min(group.rstrip(".").count(".") + 1, 4)`, else the initial value 1. -/
def dotLevel (cs : List Char) : Nat :=
  let m := dotMunch cs
  if m = [] then 1 else min ((rstripDots m).countP (fun c => c = '.') + 1) 4

/-- The pattern loop of `detect_boundaries` (source lines 294-304): because
of the `break`, the *first* matching pattern determines the confidence
(`max(0.0, conf) = conf`) and, via `dot_match`, the level.  Returns
`(best_confidence, detected_level)`; `(0, 1)` when no pattern matches. -/
def patternScan (cs : List Char) : Nat × Nat :=
  match SECTION_PATTERNS.find? (fun pc => pc.1 cs) with
  | some pc => (pc.2, dotLevel cs)
  | none => (0, 1)

/-- Modelled from the spec (§4.2 step 3): "the final confidence is the
maximum across all matches" — maximum confidence weight over all patterns
matching the text, for comparison with `patternScan`. -/
def maxMatchedConf (cs : List Char) : Nat :=
  (((SECTION_PATTERNS.filter (fun pc => pc.1 cs)).map (fun pc => pc.2))).foldr max 0

/-! ## ALL-CAPS heuristic (lines 307-312) and heading cleanup -/

/-- Number of maximal non-whitespace runs, i.e. `len(text.split())`.
The flag records whether the previous char was inside a word. -/
def wordCountAux : List Char → Bool → Nat
  | [], _ => 0
  | c :: cs, prevIn =>
    if isWsChar c then wordCountAux cs false
    else (if prevIn then 0 else 1) + wordCountAux cs true

/-- `len(text.split())`. -/
def wordCount (cs : List Char) : Nat :=
  wordCountAux cs false

/-- `text.startswith("[TABLE")`. -/
def startsWithTABLE (cs : List Char) : Bool :=
  match cs with
  | '[' :: 'T' :: 'A' :: 'B' :: 'L' :: 'E' :: _ => true
  | _ => false

/-- ALL-CAPS short-line heuristic (source lines 307-311), applied to the
stripped text when no pattern matched: shorter than 120 chars, at least
2 words, no lowercase letter (`text == text.upper()`, ASCII reading),
and not a table marker. -/
def capsHeuristic (cs : List Char) : Bool :=
  decide (cs.length < 120) && decide (2 ≤ wordCount cs) &&
    cs.all (fun c => !isLowerChar c) && !startsWithTABLE cs

/-- Worker for `collapseWs`: `inRun` is true while inside a whitespace run
whose single replacement space was already emitted. -/
def collapseWsAux : List Char → Bool → List Char
  | [], _ => []
  | c :: cs, inRun =>
    if isWsChar c then
      if inRun then collapseWsAux cs true else ' ' :: collapseWsAux cs true
    else c :: collapseWsAux cs false

/-- `re.sub(r'\s+', ' ', text)`: collapse each whitespace run to a single
space. -/
def collapseWs (cs : List Char) : List Char :=
  collapseWsAux cs false

/-- `re.sub(r'^[A-Z]?-?\d+\s+', '', text)`: drop a leading
page-number-like token.  The regex is deterministic: when the optional
letter or dash is present but the rest fails, retrying without it places
the letter/dash where a digit is required. -/
def stripPageNum (cs : List Char) : List Char :=
  let t1 := match cs with
    | c :: r => if isUpperChar c then r else cs
    | [] => cs
  let t2 := match t1 with
    | '-' :: r => r
    | _ => t1
  let ds := t2.takeWhile isDigitChar
  let t3 := t2.drop ds.length
  if ds.isEmpty then cs
  else match t3 with
    | c :: _ => if isWsChar c then t3.dropWhile isWsChar else cs
    | [] => cs

/-- `re.sub(r'^#+\s*', '', text)`: drop leading markdown hashes and the
whitespace after them. -/
def stripHashes (cs : List Char) : List Char :=
  let hs := cs.takeWhile (fun c => c = '#')
  if hs.isEmpty then cs else (cs.drop hs.length).dropWhile isWsChar

/-- `clean_heading` (source lines 264-270). -/
def clean_heading (s : String) : String :=
  let t1 := pyStrip ⟨collapseWs s.data⟩
  let t2 := pyStrip ⟨stripPageNum t1.data⟩
  let t3 := pyStrip ⟨stripHashes t2.data⟩
  if t3 = "" then "Untitled Section" else t3

/-! ## Data structures (source lines 58-80) -/

/-- `TextBlock` (source lines 58-68); `confidence` scaled by 100. -/
structure TextBlock where
  text : String
  page : Nat := 0
  heading_level : Nat := 0
  style : String := ""
  confidence : Nat := 0
deriving DecidableEq

/-- `SectionBoundary` (source lines 70-80); `confidence` scaled by 100. -/
structure SectionBoundary where
  index : Nat
  heading : String
  level : Nat
  confidence : Nat
  page : Nat
deriving DecidableEq

/-- A default block, used only to state list-indexing theorems. -/
def dummyBlock : TextBlock :=
  { text := "" }

/-! ## Boundary detection (`detect_boundaries`, lines 273-327) -/

/-- The `(best_confidence, detected_level)` pair computed for a non-blank
block (source lines 294-316): the pattern loop, then the ALL-CAPS
heuristic, then the blank-run rule for a run of 3 or more. -/
def boundaryScore (blankCount : Nat) (cs : List Char) : Nat × Nat :=
  let s1 := patternScan cs
  let s2 := if s1.1 = 0 ∧ capsHeuristic cs then (70, 1) else s1
  if 3 ≤ blankCount ∧ s2.1 = 0 then (30, 1) else s2

/-- The scan loop of `detect_boundaries`: `i` is the index of the head
block, `blankCount` the run-length counter of consecutive blank blocks. -/
def detectLoop : List TextBlock → Nat → Nat → List SectionBoundary
  | [], _, _ => []
  | blk :: rest, i, blankCount =>
    let text := pyStrip blk.text
    if 90 ≤ blk.confidence ∧ 0 < blk.heading_level then
      { index := i, heading := clean_heading text, level := blk.heading_level,
        confidence := blk.confidence, page := blk.page } :: detectLoop rest (i + 1) 0
    else if text = "" then
      detectLoop rest (i + 1) (blankCount + 1)
    else
      let s := boundaryScore blankCount text.data
      if 0 < s.1 then
        { index := i, heading := clean_heading ⟨text.data.take 120⟩, level := s.2,
          confidence := s.1, page := blk.page } :: detectLoop rest (i + 1) 0
      else
        detectLoop rest (i + 1) 0

/-- `detect_boundaries(blocks)` (source lines 273-327). -/
def detect_boundaries (blocks : List TextBlock) : List SectionBoundary :=
  detectLoop blocks 0 0

/-! ## Chunk construction (source lines 332-478) -/

/-- Final output unit (the chunk dicts of lines 444-452 / 468-476). -/
structure Chunk where
  id : Nat
  heading : String
  level : Nat
  text : String
  tokens : Nat
  start_page : Nat
  end_page : Nat
deriving DecidableEq

/-- Intermediate section dict of `chunk_by_structure` (lines 381-388):
a chunk without an id yet. -/
structure Sect where
  heading : String
  level : Nat
  text : String
  tokens : Nat
  start_page : Nat
  end_page : Nat
deriving DecidableEq

/-- `blocks_to_text(blocks)` (source lines 332-333). -/
def blocks_to_text (blocks : List TextBlock) : String :=
  String.intercalate "\n" (blocks.map TextBlock.text)

/-- Python `min(list)` over a non-empty list, with a default for `[]`
(`min(pages) if pages else 0`). -/
def listMinD (d : Nat) : List Nat → Nat
  | [] => d
  | x :: xs => xs.foldl min x

/-- Python `max(list)` over a non-empty list, with a default for `[]`. -/
def listMaxD (d : Nat) : List Nat → Nat
  | [] => d
  | x :: xs => xs.foldl max x

/-- `[b.page for b in section_blocks if b.page > 0]`. -/
def sectionPages (bs : List TextBlock) : List Nat :=
  (bs.filter (fun b => 0 < b.page)).map TextBlock.page

/-- One section dict (source lines 381-388). -/
def mkSect (bnd : SectionBoundary) (secBlocks : List TextBlock) : Sect :=
  let text := blocks_to_text secBlocks
  { heading := bnd.heading, level := bnd.level, text := text,
    tokens := count_tokens text,
    start_page := listMinD 0 (sectionPages secBlocks),
    end_page := listMaxD 0 (sectionPages secBlocks) }

/-- The section-building loop (source lines 374-388): each boundary spans
to the next boundary's index (or the end of the block list). -/
def sectionsLoop (blocks : List TextBlock) : List SectionBoundary → List Sect
  | [] => []
  | bnd :: rest =>
    let endIdx := match rest with
      | b2 :: _ => b2.index
      | [] => blocks.length
    mkSect bnd ((blocks.drop bnd.index).take (endIdx - bnd.index)) :: sectionsLoop blocks rest

/-- The synthetic Preamble section (source lines 391-402). -/
def preambleSect (pblocks : List TextBlock) : Sect :=
  let text := blocks_to_text pblocks
  { heading := "Preamble", level := 0, text := text, tokens := count_tokens text,
    start_page := listMinD 0 (sectionPages pblocks),
    end_page := listMaxD 0 (sectionPages pblocks) }

/-- Prepend the Preamble section when the first (sorted) boundary starts
after block 0 and the preamble text is not pure whitespace
(source lines 391-402). -/
def addPreamble (blocks : List TextBlock) (sorted : List SectionBoundary)
    (sections : List Sect) : List Sect :=
  match sorted with
  | [] => sections
  | bnd :: _ =>
    if 0 < bnd.index then
      let pblocks := blocks.take bnd.index
      if pyStrip (blocks_to_text pblocks) = "" then sections
      else preambleSect pblocks :: sections
    else sections

/-- Insert a boundary after all entries with index ≤ its own: together
with the left-to-right fold below this embeds Python's stable
`sorted(boundaries, key=lambda b: b.index)` (source line 371). -/
def insertByIndex (b : SectionBoundary) : List SectionBoundary → List SectionBoundary
  | [] => [b]
  | c :: cs => if b.index < c.index then b :: c :: cs else c :: insertByIndex b cs

/-- Stable sort by `index` (source line 371). -/
def sortByIndex (l : List SectionBoundary) : List SectionBoundary :=
  l.foldl (fun acc b => insertByIndex b acc) []

/-- Buffer absorption (source lines 428-433): append the section's text
with a blank-line separator, *sum* the token counts, update the heading
(unless both sides are named "Preamble"), and extend the page range. -/
def absorb (b sec : Sect) : Sect :=
  let text := b.text ++ "\n\n" ++ sec.text
  let tokens := b.tokens + sec.tokens
  let heading :=
    if b.heading ≠ "Preamble" ∨ sec.heading ≠ "Preamble" then
      if tokens < 100 then sec.heading else b.heading ++ " / " ++ sec.heading
    else b.heading
  { heading := heading, level := b.level, text := text, tokens := tokens,
    start_page := b.start_page, end_page := max b.end_page sec.end_page }

/-- The sub-chunk sections produced when an oversized section is split
(source lines 419-427): each piece inherits the section's heading
(suffixed `" (part j+1)"` when there is more than one piece), level and
page range, and its token count is recomputed from its own text. -/
def pieceSections (sec : Sect) (subs : List String) : List Sect :=
  subs.enum.map fun p =>
    { heading := sec.heading ++ (if 1 < subs.length then " (part " ++ toString (p.1 + 1) ++ ")" else ""),
      level := sec.level, text := p.2, tokens := count_tokens p.2,
      start_page := sec.start_page, end_page := sec.end_page }

/-- The merge/split pass over sections (source lines 404-440), threading
the pending buffer.  The float comparison
`buffer["tokens"] + section["tokens"] < max_tokens * 0.8` is embedded as
the exact rational comparison `(bt + st) * 5 < maxT * 4`. -/
def mergeLoop (maxT ov : Nat) : List Sect → Option Sect → List Sect
  | [], some b => [b]
  | [], none => []
  | sec :: rest, buf =>
    if maxT < sec.tokens then
      match buf with
      | some b =>
        if b.tokens < 100 then
          pieceSections sec (split_text_by_tokens (b.text ++ "\n\n" ++ sec.text) maxT ov) ++
            mergeLoop maxT ov rest none
        else
          b :: (pieceSections sec (split_text_by_tokens sec.text maxT ov) ++
            mergeLoop maxT ov rest none)
      | none =>
        pieceSections sec (split_text_by_tokens sec.text maxT ov) ++
          mergeLoop maxT ov rest none
    else
      match buf with
      | some b =>
        if b.tokens < 100 ∨ (b.tokens + sec.tokens) * 5 < maxT * 4 then
          mergeLoop maxT ov rest (some (absorb b sec))
        else
          b :: mergeLoop maxT ov rest (some sec)
      | none => mergeLoop maxT ov rest (some sec)

/-- Final chunk emission (source lines 442-453): sequential 1-based ids in
merge order. -/
def emitChunks : List Sect → Nat → List Chunk
  | [], _ => []
  | sec :: rest, i =>
    { id := i + 1, heading := sec.heading, level := sec.level, text := sec.text,
      tokens := sec.tokens, start_page := sec.start_page, end_page := sec.end_page } ::
      emitChunks rest (i + 1)

/-- `chunk_by_structure(blocks, boundaries, max_tokens, overlap)`
(source lines 366-453). -/
def chunk_by_structure (blocks : List TextBlock) (boundaries : List SectionBoundary)
    (maxT ov : Nat) : List Chunk :=
  if boundaries.isEmpty then []
  else
    let sorted := sortByIndex boundaries
    let sections := addPreamble blocks sorted (sectionsLoop blocks sorted)
    emitChunks (mergeLoop maxT ov sections none) 0

/-- `max((b.page for b in blocks if b.page > 0), default=d)`. -/
def totalPagesD (d : Nat) (blocks : List TextBlock) : Nat :=
  listMaxD d (sectionPages blocks)

/-- The emission loop of `chunk_by_tokens` (source lines 464-478).
`int((char_offset / total_chars) * total_pages)` is embedded as the exact
floor `charOffset * totalPages / totalChars`. -/
def cbtEmit (totalPages totalChars ppc : Nat) :
    List String → Nat → Nat → List Chunk
  | [], _, _ => []
  | t :: rest, i, charOffset =>
    let est := max 1 (charOffset * totalPages / totalChars + 1)
    { id := i + 1, heading := "Section " ++ toString (i + 1), level := 1, text := t,
      tokens := count_tokens t, start_page := est,
      end_page := min (est + ppc) totalPages } ::
      cbtEmit totalPages totalChars ppc rest (i + 1) (charOffset + t.length)

/-- `chunk_by_tokens(blocks, max_tokens, overlap)` (source lines 456-478). -/
def chunk_by_tokens (blocks : List TextBlock) (maxT ov : Nat) : List Chunk :=
  let full_text := blocks_to_text blocks
  let sub_texts := split_text_by_tokens full_text maxT ov
  let totalPages := totalPagesD 1 blocks
  let totalChars := max full_text.length 1
  let ppc := max 1 (totalPages / max sub_texts.length 1)
  cbtEmit totalPages totalChars ppc sub_texts 0 0

/-! ## Mode selection (`extract_and_chunk`, lines 507-516) -/

/-- `high_conf = [b for b in boundaries if b.confidence >= 0.7]`
(source line 508). -/
def high_conf (blocks : List TextBlock) : List SectionBoundary :=
  (detect_boundaries blocks).filter (fun b => 70 ≤ b.confidence)

/-- The reported `chunking_mode` (source lines 511-515). -/
def chunking_mode (blocks : List TextBlock) : String :=
  if 3 ≤ (high_conf blocks).length then "structure_aware" else "token_based"

/-- The chunk list produced by `extract_and_chunk` for a processed block
sequence (source lines 511-516). -/
def pipeline_chunks (blocks : List TextBlock) (maxT ov : Nat) : List Chunk :=
  if 3 ≤ (high_conf blocks).length then
    chunk_by_structure blocks (high_conf blocks) maxT ov
  else
    chunk_by_tokens blocks maxT ov

/-! ## PDF extraction cascade (`extract_pdf`, lines 139-145)

The three PDF backends (`PyMuPDF`, `pdfplumber`, `pdftotext`) are external
collaborators; each catches its own exceptions and returns a (possibly
empty) block list.  The cascade is modelled over those three result
lists.  It is a total function: it never raises to the caller. -/

/-- `sum(len(b.text) for b in blocks)` (source line 143). -/
def charSum (blocks : List TextBlock) : Nat :=
  (blocks.map (fun b => b.text.length)).sum

/-- `extract_pdf` (source lines 139-145) over the backend results
`r1, r2, r3` in cascade priority order: accept the first result whose
summed character count strictly exceeds 100; if none qualifies, the loop
variable still holds the last backend's result, which is returned. -/
def extract_pdf (r1 r2 r3 : List TextBlock) : List TextBlock :=
  if 100 < charSum r1 then r1
  else if 100 < charSum r2 then r2
  else r3

/-! ## Theorems -/

/-- C5 counterexample: on the empty string the fallback estimator returns
`0`, not the spec's `max(1, len // 4) = 1`. -/
theorem count_tokens_empty_counterexample :
    count_tokens "" = 0 ∧ count_tokens "" ≠ count_tokens_spec "" := by
  decide

/-- C5 (amended): the approximate estimator returns `len // 4` — which
agrees with the spec's `max(1, len // 4)` exactly for texts of at least
4 characters, and returns `0` (not `1`) for shorter texts, including the
empty string. -/
theorem count_tokens_amended (s : String) :
    count_tokens s = s.length / 4 ∧
    (4 ≤ s.length → count_tokens s = count_tokens_spec s) ∧
    (s.length < 4 → count_tokens s = 0) := by
  refine ⟨rfl, fun h => ?_, fun h => ?_⟩
  · have h1 : 1 ≤ s.length / 4 := (Nat.one_le_div_iff (by norm_num)).2 h
    unfold count_tokens count_tokens_spec
    omega
  · unfold count_tokens
    omega

/-- Witness for `count_tokens_amended` at texts of length 4 and 2. -/
theorem count_tokens_amended_witness :
    count_tokens "abcd" = count_tokens_spec "abcd" ∧ count_tokens "ab" = 0 :=
  ⟨(count_tokens_amended "abcd").2.1 (by decide),
   (count_tokens_amended "ab").2.2 (by decide)⟩

/-- C7: the PDF cascade tries the backends in fixed priority order,
accepts a result exactly when its summed character count strictly exceeds
100, and falls back to the last backend's (possibly empty) result when
none is accepted; the cascade itself is a total function (never raises). -/
theorem extract_pdf_cascade (r1 r2 r3 : List TextBlock) :
    (100 < charSum r1 → extract_pdf r1 r2 r3 = r1) ∧
    (charSum r1 ≤ 100 → 100 < charSum r2 → extract_pdf r1 r2 r3 = r2) ∧
    (charSum r1 ≤ 100 → charSum r2 ≤ 100 → extract_pdf r1 r2 r3 = r3) := by
  unfold extract_pdf
  refine ⟨fun h => by rw [if_pos h], fun h1 h2 => ?_, fun h1 h2 => ?_⟩
  · rw [if_neg (by omega), if_pos h2]
  · rw [if_neg (by omega), if_neg (by omega)]

/-- Witness for `extract_pdf_cascade`: all backends below threshold, the
last result is returned. -/
theorem extract_pdf_cascade_witness :
    extract_pdf [] [] [{ text := "x" }] = [{ text := "x" }] :=
  (extract_pdf_cascade [] [] [{ text := "x" }]).2.2 (by decide) (by decide)

/-- C3: with at least 3 high-confidence (≥ 0.7) boundaries the mode is
`"structure_aware"` and the structure-aware chunker runs on them;
otherwise the mode is `"token_based"` and the token-based chunker runs
over the whole block sequence. -/
theorem mode_selection (blocks : List TextBlock) (maxT ov : Nat) :
    (3 ≤ (high_conf blocks).length →
      chunking_mode blocks = "structure_aware" ∧
      pipeline_chunks blocks maxT ov = chunk_by_structure blocks (high_conf blocks) maxT ov) ∧
    ((high_conf blocks).length < 3 →
      chunking_mode blocks = "token_based" ∧
      pipeline_chunks blocks maxT ov = chunk_by_tokens blocks maxT ov) := by
  unfold chunking_mode pipeline_chunks
  refine ⟨fun h => ⟨by rw [if_pos h], by rw [if_pos h]⟩, fun h => ?_⟩
  have h' : ¬ 3 ≤ (high_conf blocks).length := by omega
  exact ⟨by rw [if_neg h'], by rw [if_neg h']⟩

/-- Blocks whose three numbered-outline lines yield three high-confidence
boundaries. -/
def demoStructBlocks : List TextBlock :=
  [{ text := "1. Alpha" }, { text := "2. Beta" }, { text := "3. Gamma" }]

/-- Witness for `mode_selection`: both sides of the dispatch at concrete
block lists. -/
theorem mode_selection_witness :
    chunking_mode demoStructBlocks = "structure_aware" ∧
    chunking_mode [] = "token_based" :=
  ⟨((mode_selection demoStructBlocks 5 0).1 (by decide)).1,
   ((mode_selection [] 5 0).2 (by decide)).1⟩

/-! ### C9: chunk ids -/

theorem emitChunks_length (l : List Sect) (i : Nat) :
    (emitChunks l i).length = l.length := by
  induction l generalizing i with
  | nil => rfl
  | cons s rest ih => simp [emitChunks, ih]

theorem emitChunks_ids (l : List Sect) (i : Nat) :
    (emitChunks l i).map Chunk.id = List.range' (i + 1) l.length := by
  induction l generalizing i with
  | nil => rfl
  | cons s rest ih =>
    simp [emitChunks, ih, List.range'_succ]

theorem cbtEmit_length (tp tc ppc : Nat) (ts : List String) (i off : Nat) :
    (cbtEmit tp tc ppc ts i off).length = ts.length := by
  induction ts generalizing i off with
  | nil => rfl
  | cons t rest ih => simp [cbtEmit, ih]

theorem cbtEmit_ids (tp tc ppc : Nat) (ts : List String) (i off : Nat) :
    (cbtEmit tp tc ppc ts i off).map Chunk.id = List.range' (i + 1) ts.length := by
  induction ts generalizing i off with
  | nil => rfl
  | cons t rest ih =>
    simp [cbtEmit, ih, List.range'_succ]

/-- C9: in both chunking modes, the ids of the emitted chunk list are
exactly `1, 2, …, n` in emission order. -/
theorem chunk_ids_contiguous (blocks : List TextBlock)
    (bnds : List SectionBoundary) (maxT ov : Nat) :
    (chunk_by_structure blocks bnds maxT ov).map Chunk.id =
      List.range' 1 (chunk_by_structure blocks bnds maxT ov).length ∧
    (chunk_by_tokens blocks maxT ov).map Chunk.id =
      List.range' 1 (chunk_by_tokens blocks maxT ov).length := by
  constructor
  · unfold chunk_by_structure
    split
    · rfl
    · rw [emitChunks_ids, emitChunks_length]
  · unfold chunk_by_tokens
    rw [cbtEmit_ids, cbtEmit_length]

/-! ### C4: overlap seeding -/

theorem sumTokens_append (l1 l2 : List String) :
    sumTokens (l1 ++ l2) = sumTokens l1 + sumTokens l2 := by
  simp [sumTokens]

/-- Invariant of the backward overlap walk: starting within budget with a
truthful token sum, it stays within budget with a truthful token sum, and
only ever prepends a reversed prefix of its input. -/
theorem overlapLoop_spec (ov : Nat) (l : List String) :
    ∀ parts otok, otok ≤ ov → otok = sumTokens parts →
      (overlapLoop ov l (parts, otok)).2 ≤ ov ∧
      (overlapLoop ov l (parts, otok)).2 = sumTokens (overlapLoop ov l (parts, otok)).1 ∧
      ∃ k, (overlapLoop ov l (parts, otok)).1 = (l.take k).reverse ++ parts := by
  induction l with
  | nil =>
    intro parts otok h1 h2
    exact ⟨h1, h2, 0, by simp [overlapLoop]⟩
  | cons s rest ih =>
    intro parts otok h1 h2
    by_cases hc : otok + count_tokens s > ov
    · simp only [overlapLoop, if_pos hc]
      exact ⟨h1, h2, 0, by simp⟩
    · simp only [overlapLoop, if_neg hc]
      obtain ⟨g1, g2, k, g3⟩ := ih (s :: parts) (otok + count_tokens s) (by omega)
        (by simp [sumTokens] at h2 ⊢; omega)
      refine ⟨g1, g2, k + 1, ?_⟩
      rw [g3]
      simp [List.take_succ_cons]

/-- C4: the overlap seed computed when the splitter finalizes a chunk is a
suffix of the finalized chunk's sentence list in original order, its
recorded token count is the sum of its sentences' estimates, and it never
exceeds the `overlap` budget. -/
theorem overlap_seed_ok (ov : Nat) (current : List String) :
    (∃ m, (overlapParts ov current).1 = current.drop m) ∧
    (overlapParts ov current).2 = sumTokens (overlapParts ov current).1 ∧
    (overlapParts ov current).2 ≤ ov := by
  obtain ⟨g1, g2, k, g3⟩ :=
    overlapLoop_spec ov current.reverse [] 0 (Nat.zero_le ov) (by simp [sumTokens])
  unfold overlapParts
  refine ⟨⟨current.length - k, ?_⟩, g2, g1⟩
  rw [g3, List.append_nil, List.take_reverse, List.reverse_reverse]

/-! ### C2: token budget of the splitter -/

/-- C2 counterexample: with `max_tokens = 1`, `overlap = 0` the splitter
returns one chunk of three sentences whose estimate (2) exceeds
`max_tokens`, while every individual sentence's estimate is 0: the
"single oversized sentence" exception does not apply, yet the chunk's
estimated token count exceeds the budget (the spaces inserted by the
join are not counted in the per-sentence running sum). -/
theorem split_budget_counterexample :
    split_text_by_tokens "ab. ab. ab." 1 0 = ["ab. ab. ab."] ∧
    1 < count_tokens "ab. ab. ab." ∧
    (splitSentences "ab. ab. ab.").length = 3 ∧
    ∀ s ∈ splitSentences "ab. ab. ab.", count_tokens s ≤ 1 := by
  decide

/-- Ghost view of `sbtLoop`: the same accumulation loop (identical
conditions and seed computation), but each finalized chunk is kept as
its list of sentences instead of being space-joined.  `sbtLoop` is
exactly the `String.intercalate " "` image of this decomposition
(`sbtLoop_eq_runs` below), so properties of these runs are properties
of the splitter's actual chunks. -/
def sbtRuns (maxT ov : Nat) : List String → List String → Nat → List (List String)
  | [], current, _ =>
    if current = [] then [] else [current]
  | s :: rest, current, curTok =>
    let st := count_tokens s
    if maxT < curTok + st ∧ current ≠ [] then
      current ::
        (let seed := overlapParts ov current
         sbtRuns maxT ov rest (seed.1 ++ [s]) (seed.2 + st))
    else
      sbtRuns maxT ov rest (current ++ [s]) (curTok + st)

theorem splitSentencesAux_ne_nil (cs : List Char) :
    ∀ acc b, splitSentencesAux cs acc b ≠ [] := by
  induction cs with
  | nil => intro acc b; simp [splitSentencesAux]
  | cons c rest ih =>
    intro acc b
    simp only [splitSentencesAux]
    split
    · exact ih _ _
    · split
      · simp
      · exact ih _ _

theorem splitSentences_ne_nil (text : String) : splitSentences text ≠ [] := by
  intro h
  exact splitSentencesAux_ne_nil text.data [] false (by simpa [splitSentences] using h)

theorem sbtLoop_ne_nil (maxT ov : Nat) :
    ∀ (sents current : List String) (curTok : Nat),
      sents ≠ [] ∨ current ≠ [] → sbtLoop maxT ov sents current curTok ≠ [] := by
  intro sents
  induction sents with
  | nil =>
    intro current curTok h
    rcases h with h | h
    · exact absurd rfl h
    · simp [sbtLoop, h]
  | cons s rest ih =>
    intro current curTok _
    simp only [sbtLoop]
    split
    · simp
    · exact ih _ _ (Or.inr (by simp))

/-- `sbtLoop` is the space-join image of the run decomposition: the
chunks the splitter returns are exactly the joins of the runs. -/
theorem sbtLoop_eq_runs (maxT ov : Nat) :
    ∀ (sents current : List String) (curTok : Nat),
      sbtLoop maxT ov sents current curTok
        = (sbtRuns maxT ov sents current curTok).map (String.intercalate " ") := by
  intro sents
  induction sents with
  | nil =>
    intro current curTok
    simp only [sbtLoop, sbtRuns]
    split
    · rfl
    · rfl
  | cons s rest ih =>
    intro current curTok
    simp only [sbtLoop, sbtRuns]
    split
    · rw [List.map_cons, ih]
    · exact ih _ _

/-- The first run a loop invocation emits extends its initial
accumulation: sentences are only ever appended at the end until the
chunk is finalized or flushed. -/
theorem sbtRuns_head (maxT ov : Nat) :
    ∀ (sents current : List String) (curTok : Nat), current ≠ [] →
      ∃ tail, (sbtRuns maxT ov sents current curTok).head? = some (current ++ tail) := by
  intro sents
  induction sents with
  | nil =>
    intro current curTok h
    simp only [sbtRuns]
    rw [if_neg h]
    exact ⟨[], by simp⟩
  | cons s rest ih =>
    intro current curTok h
    simp only [sbtRuns]
    split
    · exact ⟨[], by simp⟩
    · obtain ⟨tail, htail⟩ := ih (current ++ [s]) (curTok + count_tokens s) (by simp)
      exact ⟨[s] ++ tail, by rw [htail]; simp⟩

/-- The token-budget guarantee of the accumulation loop, on the actual
run decomposition: every emitted run is nonempty and either its
token-estimate sum stays within `max_tokens`, or everything before its
final sentence fits within the `overlap` budget (the run is an overlap
seed plus the one sentence whose addition was forced). -/
theorem sbtRuns_budget (maxT ov : Nat) (sents : List String) :
    ∀ (current : List String) (curTok : Nat), curTok = sumTokens current →
      (current ≠ [] → sumTokens current ≤ maxT ∨ sumTokens current.dropLast ≤ ov) →
      ∀ cs ∈ sbtRuns maxT ov sents current curTok,
        cs ≠ [] ∧ (sumTokens cs ≤ maxT ∨ sumTokens cs.dropLast ≤ ov) := by
  induction sents with
  | nil =>
    intro current curTok hsum hinv cs hcs
    by_cases h : current = []
    · simp [sbtRuns, h] at hcs
    · simp only [sbtRuns] at hcs
      rw [if_neg h] at hcs
      rcases List.mem_singleton.mp hcs with rfl
      exact ⟨h, hinv h⟩
  | cons s rest ih =>
    intro current curTok hsum hinv cs hcs
    simp only [sbtRuns] at hcs
    split at hcs
    · rename_i hcond
      rcases List.mem_cons.mp hcs with rfl | hcs'
      · exact ⟨hcond.2, hinv hcond.2⟩
      · obtain ⟨g1, g2, k, g3⟩ :=
          overlapLoop_spec ov current.reverse [] 0 (Nat.zero_le ov) (by simp [sumTokens])
        refine ih ((overlapParts ov current).1 ++ [s]) _ ?_ ?_ cs hcs'
        · rw [sumTokens_append]
          unfold overlapParts
          rw [← g2]
          simp [sumTokens]
        · intro _
          right
          rw [List.dropLast_concat]
          unfold overlapParts
          rw [← g2]
          exact g1
    · rename_i hcond
      refine ih (current ++ [s]) _ (by rw [sumTokens_append, hsum]; simp [sumTokens]) ?_ cs hcs
      intro _
      rcases List.eq_nil_or_concat current with h | h
      · right
        rw [h]
        simp [sumTokens]
      · have hne : current ≠ [] := by rcases h with ⟨l, a, rfl⟩; simp
        have hle : curTok + count_tokens s ≤ maxT := by
          rcases Nat.lt_or_ge maxT (curTok + count_tokens s) with hlt | hge
          · exact absurd ⟨hlt, hne⟩ hcond
          · exact hge
        left
        rw [sumTokens_append, ← hsum]
        simpa [sumTokens] using hle

/-- Consecutive runs are linked by the actual overlap computation: every
run after the first starts with exactly `(overlapParts ov previous).1`,
the seed walked back from the just-finalized run, followed by at least
one new sentence. -/
theorem sbtRuns_chain (maxT ov : Nat) :
    ∀ (sents current : List String) (curTok : Nat),
      (sbtRuns maxT ov sents current curTok).Chain'
        (fun a b => ∃ s tail, b = (overlapParts ov a).1 ++ s :: tail) := by
  intro sents
  induction sents with
  | nil =>
    intro current curTok
    simp only [sbtRuns]
    split
    · exact List.chain'_nil
    · exact List.chain'_singleton _
  | cons s rest ih =>
    intro current curTok
    simp only [sbtRuns]
    split
    · refine List.chain'_cons'.mpr ⟨?_, ih _ _⟩
      intro b hb
      obtain ⟨tail, hhead⟩ :=
        sbtRuns_head maxT ov rest ((overlapParts ov current).1 ++ [s])
          ((overlapParts ov current).2 + count_tokens s) (by simp)
      rw [hhead, Option.mem_some_iff] at hb
      exact ⟨s, tail, by rw [← hb]; simp⟩
    · exact ih _ _

/-- C2 (amended): the splitter always terminates with at least one chunk;
its chunks are exactly the space-joins of the loop's run decomposition
`sbtRuns`; every run is a nonempty sentence list whose summed token
estimates either stay within `max_tokens` or whose sentences before the
last fit within the `overlap` budget (the run is the overlap seed plus
the one forced sentence — in particular a single sentence exceeding
`max_tokens` is emitted as its own chunk); and each run after the first
begins with exactly the overlap seed computed from its predecessor.
A chunk's re-estimated token count can nevertheless exceed `max_tokens`
even under the per-sentence bound, because the joining spaces are not
part of the running sum — see the counterexample. -/
theorem split_text_by_tokens_amended (text : String) (maxT ov : Nat) :
    split_text_by_tokens text maxT ov ≠ [] ∧
    split_text_by_tokens text maxT ov
      = (sbtRuns maxT ov (splitSentences text) [] 0).map (String.intercalate " ") ∧
    (∀ cs ∈ sbtRuns maxT ov (splitSentences text) [] 0,
      cs ≠ [] ∧ (sumTokens cs ≤ maxT ∨ sumTokens cs.dropLast ≤ ov)) ∧
    (sbtRuns maxT ov (splitSentences text) [] 0).Chain'
      (fun a b => ∃ s tail, b = (overlapParts ov a).1 ++ s :: tail) := by
  have hne : sbtLoop maxT ov (splitSentences text) [] 0 ≠ [] :=
    sbtLoop_ne_nil maxT ov (splitSentences text) [] 0 (Or.inl (splitSentences_ne_nil text))
  have hform : split_text_by_tokens text maxT ov = sbtLoop maxT ov (splitSentences text) [] 0 := by
    simp only [split_text_by_tokens]
    rw [if_neg hne]
  rw [hform]
  exact ⟨hne, sbtLoop_eq_runs maxT ov (splitSentences text) [] 0,
    sbtRuns_budget maxT ov (splitSentences text) [] 0 (by simp [sumTokens])
      (fun h => absurd rfl h),
    sbtRuns_chain maxT ov (splitSentences text) [] 0⟩

/-- Witness for `split_text_by_tokens_amended` at a concrete input:
one-sentence text, whose single run is within budget. -/
theorem split_text_by_tokens_amended_witness :
    split_text_by_tokens "hello." 5 0 ≠ [] ∧
    (["hello."] ≠ [] ∧
      (sumTokens ["hello."] ≤ 5 ∨ sumTokens (["hello."].dropLast) ≤ 0)) :=
  ⟨(split_text_by_tokens_amended "hello." 5 0).1,
   (split_text_by_tokens_amended "hello." 5 0).2.2.1 ["hello."] (by decide)⟩

/-! ### C1: recorded token counts of emitted chunks -/

/-- Two tiny adjacent sections, which the merge pass absorbs into one
buffer. -/
def mergeBlocks : List TextBlock :=
  [{ text := "aaaaaaa", page := 1 }, { text := "bbbbbbb", page := 1 }]

def mergeBnds : List SectionBoundary :=
  [{ index := 0, heading := "A", level := 1, confidence := 95, page := 1 },
   { index := 1, heading := "B", level := 1, confidence := 95, page := 1 }]

/-- C1 counterexample: absorbing a section into the pending buffer sums
the token counts (1 + 1 = 2) while the merged text
`"aaaaaaa\n\nbbbbbbb"` estimates to 16 // 4 = 4: the emitted chunk's
recorded `tokens` is not the Token Estimator of its exact text. -/
theorem chunk_tokens_counterexample :
    ∃ c ∈ chunk_by_structure mergeBlocks mergeBnds 4000 200,
      c.tokens ≠ count_tokens c.text := by
  decide

theorem count_tokens_sep_le (a b : String) :
    count_tokens a + count_tokens b ≤ count_tokens (a ++ "\n\n" ++ b) := by
  unfold count_tokens
  have hsep : ("\n\n" : String).length = 2 := rfl
  have h1 : (a ++ "\n\n" ++ b).length = a.length + 2 + b.length := by
    simp [String.length_append, hsep]
  rw [h1, Nat.le_div_iff_mul_le (by norm_num)]
  have h2 := Nat.div_mul_le_self a.length 4
  have h3 := Nat.div_mul_le_self b.length 4
  omega

/-- The invariant the merge pass preserves: the recorded token count never
exceeds the estimator's value on the section's text (with equality for
freshly built sections; absorption loses the `"\n\n"` separators). -/
def SectOK (s : Sect) : Prop :=
  s.tokens ≤ count_tokens s.text

theorem absorb_ok {b sec : Sect} (hb : SectOK b) (hs : SectOK sec) :
    SectOK (absorb b sec) := by
  unfold SectOK absorb
  dsimp only
  calc b.tokens + sec.tokens
      ≤ count_tokens b.text + count_tokens sec.text := Nat.add_le_add hb hs
    _ ≤ count_tokens (b.text ++ "\n\n" ++ sec.text) := count_tokens_sep_le _ _

theorem pieceSections_ok (sec : Sect) (subs : List String) :
    ∀ s ∈ pieceSections sec subs, SectOK s := by
  intro s hs
  simp only [pieceSections, List.mem_map] at hs
  obtain ⟨⟨i, t⟩, _, rfl⟩ := hs
  exact le_refl _

theorem mergeLoop_ok (maxT ov : Nat) (sections : List Sect) :
    ∀ buf : Option Sect,
      (∀ s ∈ sections, SectOK s) → (∀ b, buf = some b → SectOK b) →
      ∀ s ∈ mergeLoop maxT ov sections buf, SectOK s := by
  induction sections with
  | nil =>
    intro buf hsec hbuf s hs
    cases buf with
    | none => simp [mergeLoop] at hs
    | some b =>
      simp only [mergeLoop, List.mem_singleton] at hs
      exact hs ▸ hbuf b rfl
  | cons sec rest ih =>
    intro buf hsec hbuf s hs
    have hsec' : ∀ s ∈ rest, SectOK s := fun s h => hsec s (List.mem_cons_of_mem _ h)
    have hsechd : SectOK sec := hsec sec (List.mem_cons_self _ _)
    cases buf with
    | none =>
      simp only [mergeLoop] at hs
      split at hs
      · rcases List.mem_append.mp hs with h | h
        · exact pieceSections_ok _ _ s h
        · exact ih none hsec' (by simp) s h
      · exact ih (some sec) hsec' (fun b hb => by cases hb; exact hsechd) s hs
    | some b =>
      simp only [mergeLoop] at hs
      split at hs
      · split at hs
        · rcases List.mem_append.mp hs with h | h
          · exact pieceSections_ok _ _ s h
          · exact ih none hsec' (by simp) s h
        · rcases List.mem_cons.mp hs with rfl | hs'
          · exact hbuf s rfl
          · rcases List.mem_append.mp hs' with h | h
            · exact pieceSections_ok _ _ s h
            · exact ih none hsec' (by simp) s h
      · split at hs
        · exact ih (some (absorb b sec)) hsec'
            (fun b' hb' => by cases hb'; exact absorb_ok (hbuf b rfl) hsechd) s hs
        · rcases List.mem_cons.mp hs with rfl | hs'
          · exact hbuf s rfl
          · exact ih (some sec) hsec' (fun b' hb' => by cases hb'; exact hsechd) s hs'

theorem sectionsLoop_ok (blocks : List TextBlock) (bl : List SectionBoundary) :
    ∀ s ∈ sectionsLoop blocks bl, SectOK s := by
  induction bl with
  | nil => simp [sectionsLoop]
  | cons bnd rest ih =>
    intro s hs
    rcases List.mem_cons.mp hs with rfl | hs'
    · exact le_refl _
    · exact ih s hs'

theorem addPreamble_ok (blocks : List TextBlock) (sorted : List SectionBoundary)
    (sections : List Sect) (h : ∀ s ∈ sections, SectOK s) :
    ∀ s ∈ addPreamble blocks sorted sections, SectOK s := by
  cases sorted with
  | nil => exact h
  | cons bnd rest =>
    simp only [addPreamble]
    split
    · split
      · exact h
      · intro s hs
        rcases List.mem_cons.mp hs with rfl | hs'
        · exact le_refl _
        · exact h s hs'
    · exact h

theorem emitChunks_tokens (l : List Sect) :
    ∀ i, (∀ s ∈ l, SectOK s) →
      ∀ c ∈ emitChunks l i, c.tokens ≤ count_tokens c.text := by
  induction l with
  | nil => simp [emitChunks]
  | cons s rest ih =>
    intro i h c hc
    rcases List.mem_cons.mp hc with rfl | hc'
    · exact h s (List.mem_cons_self _ _)
    · exact ih (i + 1) (fun s' h' => h s' (List.mem_cons_of_mem _ h')) c hc'

theorem cbtEmit_tokens (tp tc ppc : Nat) (ts : List String) :
    ∀ i off, ∀ c ∈ cbtEmit tp tc ppc ts i off, c.tokens = count_tokens c.text := by
  induction ts with
  | nil => simp [cbtEmit]
  | cons t rest ih =>
    intro i off c hc
    rcases List.mem_cons.mp hc with rfl | hc'
    · rfl
    · exact ih _ _ c hc'

/-- C1 (amended): every chunk emitted by the token-based chunker records
`tokens = count_tokens(text)` exactly; every chunk emitted by the
structure-aware chunker records `tokens ≤ count_tokens(text)`, with
equality except for chunks flushed from a buffer that absorbed sections:
those record the *sum* of the absorbed sections' counts, which misses
the `"\n\n"` separators joining the texts (see the counterexample). -/
theorem chunk_tokens_amended (blocks : List TextBlock)
    (bnds : List SectionBoundary) (maxT ov : Nat) :
    (∀ c ∈ chunk_by_tokens blocks maxT ov, c.tokens = count_tokens c.text) ∧
    (∀ c ∈ chunk_by_structure blocks bnds maxT ov, c.tokens ≤ count_tokens c.text) := by
  constructor
  · intro c hc
    exact cbtEmit_tokens _ _ _ _ _ _ c (by simpa [chunk_by_tokens] using hc)
  · intro c hc
    unfold chunk_by_structure at hc
    split at hc
    · simp at hc
    · refine emitChunks_tokens _ 0 ?_ c hc
      exact mergeLoop_ok maxT ov _ none
        (addPreamble_ok _ _ _ (sectionsLoop_ok _ _)) (by simp)

/-- The single chunk produced by `chunk_by_tokens` on a one-block
document. -/
def demoTokChunk : Chunk :=
  { id := 1, heading := "Section 1", level := 1, text := "hello there.",
    tokens := 3, start_page := 1, end_page := 1 }

/-- Witness for `chunk_tokens_amended` at a concrete one-block document. -/
theorem chunk_tokens_amended_witness :
    demoTokChunk.tokens = count_tokens demoTokChunk.text :=
  (chunk_tokens_amended [{ text := "hello there." }] [] 50 0).1 demoTokChunk (by decide)

/-! ### C6: page ranges of token-based chunks -/

/-- Two one-page blocks whose text splits, under a large overlap, into
four heavily overlapping chunks. -/
def pageBlocks : List TextBlock :=
  [{ text := "aaaaaaa. aaaaaaa.", page := 1 }, { text := "aaaaaaa. aaaaaaa.", page := 2 }]

/-- C6 counterexample: overlap repeats text, so the accumulated character
offset of the last chunk (51) exceeds the total character count (35);
its `start_page` (3) then exceeds both the true total page count (2) and
its own `end_page` (2) — the page range covers no page at all. -/
theorem page_range_counterexample :
    totalPagesD 1 pageBlocks = 2 ∧
    ∃ c ∈ chunk_by_tokens pageBlocks 2 10,
      totalPagesD 1 pageBlocks < c.start_page ∧ c.end_page < c.start_page := by
  decide

theorem le_foldl_max (xs : List Nat) : ∀ x : Nat, x ≤ xs.foldl max x := by
  induction xs with
  | nil => exact fun x => le_refl x
  | cons y ys ih => exact fun x => le_trans (Nat.le_max_left x y) (ih (max x y))

theorem sectionPages_pos (bs : List TextBlock) : ∀ p ∈ sectionPages bs, 0 < p := by
  intro p hp
  simp only [sectionPages, List.mem_map, List.mem_filter] at hp
  obtain ⟨b, ⟨_, hb⟩, rfl⟩ := hp
  exact of_decide_eq_true hb

theorem totalPagesD_one_pos (blocks : List TextBlock) : 1 ≤ totalPagesD 1 blocks := by
  unfold totalPagesD
  cases hsp : sectionPages blocks with
  | nil => exact le_refl 1
  | cons x xs =>
    have hx : 0 < x := sectionPages_pos blocks x (hsp ▸ List.mem_cons_self x xs)
    exact le_trans hx (le_foldl_max xs x)

theorem cbtEmit_pages (tp tc ppc : Nat) (htp : 1 ≤ tp) (ts : List String) :
    ∀ i off, ∀ c ∈ cbtEmit tp tc ppc ts i off,
      1 ≤ c.start_page ∧ 1 ≤ c.end_page ∧ c.end_page ≤ tp := by
  induction ts with
  | nil => simp [cbtEmit]
  | cons t rest ih =>
    intro i off c hc
    rcases List.mem_cons.mp hc with rfl | hc'
    · refine ⟨Nat.le_max_left 1 _, Nat.le_min.mpr ⟨?_, htp⟩, Nat.min_le_right _ _⟩
      exact le_trans (Nat.le_max_left 1 _) (Nat.le_add_right _ _)
    · exact ih _ _ c hc'

/-- C6 (amended): in token-based fallback mode every chunk's `start_page`
and `end_page` are at least 1 and `end_page` never exceeds the total
page count; but `start_page` is not clamped against the total, and when
overlap repeats text the accumulated character offsets can push
`start_page` beyond both `end_page` and the total page count (see the
counterexample), so the range need not cover at least one page. -/
theorem page_range_amended (blocks : List TextBlock) (maxT ov : Nat) :
    ∀ c ∈ chunk_by_tokens blocks maxT ov,
      1 ≤ c.start_page ∧ 1 ≤ c.end_page ∧ c.end_page ≤ totalPagesD 1 blocks := by
  intro c hc
  exact cbtEmit_pages _ _ _ (totalPagesD_one_pos blocks) _ _ _ c
    (by simpa [chunk_by_tokens] using hc)

/-- Witness for `page_range_amended` at a concrete one-block document. -/
theorem page_range_amended_witness :
    1 ≤ demoTokChunk.start_page ∧ 1 ≤ demoTokChunk.end_page ∧
      demoTokChunk.end_page ≤ totalPagesD 1 [{ text := "hello there." }] :=
  page_range_amended [{ text := "hello there." }] 50 0 demoTokChunk (by decide)

/-! ### C10: boundary indices and blank blocks -/

/-- A whitespace-only block pre-marked as a heading at extraction time. -/
def blankHeadingBlocks : List TextBlock :=
  [{ text := " ", page := 2, heading_level := 1, style := "Heading 1", confidence := 95 }]

/-- C10 counterexample: a block carrying extraction-time heading metadata
(confidence ≥ 0.9 and heading_level > 0) receives a boundary through the
pre-marked branch even though its trimmed text is empty, so "no boundary
is ever placed at a block whose trimmed text is empty" fails as stated. -/
theorem blank_boundary_counterexample :
    ∃ bnd ∈ detect_boundaries blankHeadingBlocks,
      pyStrip ((blankHeadingBlocks.getD bnd.index dummyBlock).text) = "" := by
  decide

theorem detectLoop_mem (bs : List TextBlock) :
    ∀ i bc, ∀ bnd ∈ detectLoop bs i bc,
      i ≤ bnd.index ∧ bnd.index - i < bs.length ∧
      (pyStrip ((bs.getD (bnd.index - i) dummyBlock).text) ≠ "" ∨
        (90 ≤ (bs.getD (bnd.index - i) dummyBlock).confidence ∧
          0 < (bs.getD (bnd.index - i) dummyBlock).heading_level)) := by
  induction bs with
  | nil => intro i bc bnd hbnd; simp [detectLoop] at hbnd
  | cons blk rest ih =>
    intro i bc bnd hbnd
    have step : ∀ bc', bnd ∈ detectLoop rest (i + 1) bc' →
        i ≤ bnd.index ∧ bnd.index - i < (blk :: rest).length ∧
        (pyStrip (((blk :: rest).getD (bnd.index - i) dummyBlock).text) ≠ "" ∨
          (90 ≤ ((blk :: rest).getD (bnd.index - i) dummyBlock).confidence ∧
            0 < ((blk :: rest).getD (bnd.index - i) dummyBlock).heading_level)) := by
      intro bc' h
      obtain ⟨h1, h2, h3⟩ := ih (i + 1) bc' bnd h
      have hk : bnd.index - i = (bnd.index - (i + 1)) + 1 := by omega
      rw [hk]
      exact ⟨by omega, by simpa using h2, by simpa using h3⟩
    simp only [detectLoop] at hbnd
    split at hbnd
    · rename_i hpre
      rcases List.mem_cons.mp hbnd with rfl | h'
      · exact ⟨le_refl i, by simp, Or.inr (by simpa using hpre)⟩
      · exact step 0 h'
    · rename_i hpre
      split at hbnd
      · exact step (bc + 1) hbnd
      · rename_i hblank
        split at hbnd
        · rcases List.mem_cons.mp hbnd with rfl | h'
          · exact ⟨le_refl i, by simp, Or.inl (by simpa using hblank)⟩
          · exact step 0 h'
        · exact step 0 hbnd

theorem detectLoop_pairwise (bs : List TextBlock) :
    ∀ i bc, (detectLoop bs i bc).Pairwise (fun a b => a.index < b.index) := by
  induction bs with
  | nil => intro i bc; simp [detectLoop]
  | cons blk rest ih =>
    intro i bc
    have hlow : ∀ bc' bnd, bnd ∈ detectLoop rest (i + 1) bc' → i < bnd.index := by
      intro bc' bnd h
      have := (detectLoop_mem rest (i + 1) bc' bnd h).1
      omega
    simp only [detectLoop]
    split
    · exact List.Pairwise.cons (fun b hb => hlow 0 b hb) (ih (i + 1) 0)
    · split
      · exact ih (i + 1) (bc + 1)
      · split
        · exact List.Pairwise.cons (fun b hb => hlow 0 b hb) (ih (i + 1) 0)
        · exact ih (i + 1) 0

/-- C10 (amended): the boundary list has strictly increasing block indices
(at most one boundary per block, in scan order) and every boundary sits
at an index inside the block list; a boundary's block either has
non-empty trimmed text or was pre-marked as a heading at extraction time
(confidence ≥ 0.9 and heading_level > 0) — the latter case, which the
extractors never produce for blank blocks, is the only way a boundary
can sit on a blank block (see the counterexample).  In particular every
pattern-, caps- or blank-run-detected boundary (including the
low-confidence one after a blank run of 3+) sits on a non-blank block. -/
theorem detect_boundaries_amended (blocks : List TextBlock) :
    (detect_boundaries blocks).Pairwise (fun a b => a.index < b.index) ∧
    ∀ bnd ∈ detect_boundaries blocks,
      bnd.index < blocks.length ∧
      (pyStrip ((blocks.getD bnd.index dummyBlock).text) ≠ "" ∨
        (90 ≤ (blocks.getD bnd.index dummyBlock).confidence ∧
          0 < (blocks.getD bnd.index dummyBlock).heading_level)) := by
  refine ⟨detectLoop_pairwise blocks 0 0, fun bnd hbnd => ?_⟩
  obtain ⟨_, h2, h3⟩ := detectLoop_mem blocks 0 0 bnd hbnd
  rw [Nat.sub_zero] at h2 h3
  exact ⟨h2, h3⟩

/-- The boundary detected for the one-block list `[{text := "1. Alpha"}]`. -/
def demoBoundary : SectionBoundary :=
  { index := 0, heading := "1. Alpha", level := 1, confidence := 90, page := 0 }

/-- Witness for `detect_boundaries_amended` at a concrete block list. -/
theorem detect_boundaries_amended_witness :
    demoBoundary.index < ([{ text := "1. Alpha" }] : List TextBlock).length ∧
    (pyStrip ((([{ text := "1. Alpha" }] : List TextBlock).getD demoBoundary.index dummyBlock).text) ≠ "" ∨
      (90 ≤ (([{ text := "1. Alpha" }] : List TextBlock).getD demoBoundary.index dummyBlock).confidence ∧
        0 < (([{ text := "1. Alpha" }] : List TextBlock).getD demoBoundary.index dummyBlock).heading_level)) :=
  (detect_boundaries_amended [{ text := "1. Alpha" }]).2 demoBoundary (by decide)

/-! ### C8: pattern confidence and level inference -/

/-- Modelled from the spec (§4.2 step 3): the number of numeric groups
(`digits.`) at the start of a numbered outline — "nesting level = count
of numeric groups".  Same two-mode scan as `p1Scan`: `true` = inside a
group's digit run, `false` = at a group boundary. -/
def countGroupsGo : List Char → Bool → Nat
  | [], _ => 0
  | c :: cs, true =>
    if isDigitChar c then countGroupsGo cs true
    else if c = '.' then countGroupsGo cs false + 1
    else 0
  | c :: cs, false =>
    if isDigitChar c then countGroupsGo cs true else 0

/-- Number of complete leading numeric groups. -/
def countGroups (cs : List Char) : Nat :=
  countGroupsGo cs false

theorem p1Core_head {cs : List Char} (h : p1Core cs = true) :
    ∃ c r, cs = c :: r ∧ isDigitChar c = true ∧ p1Scan r true = true := by
  cases cs with
  | nil => simp [p1Core] at h
  | cons c r =>
    simp only [p1Core, Bool.and_eq_true] at h
    exact ⟨c, r, rfl, h.1, h.2⟩

theorem p2Core_shape {cs : List Char} (h : p2Core cs = true) :
    ∃ c d r, cs = c :: d :: r ∧ isRomanChar c = true ∧
      (isRomanChar d = true ∨ d = '.') := by
  cases cs with
  | nil => simp [p2Core] at h
  | cons c rest =>
    simp only [p2Core, Bool.and_eq_true] at h
    obtain ⟨hc, hafter⟩ := h
    cases rest with
    | nil => simp [p2After] at hafter
    | cons d r =>
      refine ⟨c, d, r, rfl, hc, ?_⟩
      by_cases hd : isRomanChar d = true
      · exact Or.inl hd
      · by_cases hdd : d = '.'
        · exact Or.inr hdd
        · simp [p2After, hd, hdd] at hafter

theorem p3Core_shape {cs : List Char} (h : p3Core cs = true) :
    ∃ c d r, cs = c :: d :: r ∧ isUpperChar c = true ∧ d = '.' := by
  match cs with
  | [] => simp [p3Core] at h
  | [c] => simp [p3Core] at h
  | c :: d :: r =>
    simp only [p3Core, Bool.and_eq_true, decide_eq_true_eq] at h
    exact ⟨c, d, r, rfl, h.1.1, h.1.2⟩

theorem matchSeq_cons {p : Char → Bool} {ps : List (Char → Bool)} {cs r : List Char}
    (h : matchSeq (p :: ps) cs = some r) :
    ∃ c cs', cs = c :: cs' ∧ p c = true ∧ matchSeq ps cs' = some r := by
  cases cs with
  | nil => simp [matchSeq] at h
  | cons c cs' =>
    by_cases hp : p c = true
    · exact ⟨c, cs', rfl, hp, by simpa [matchSeq, hp] using h⟩
    · simp [matchSeq, hp] at h

theorem matchTail_eq_true {w : List (Char → Bool)} {cs : List Char} {f : List Char → Bool}
    (h : (match matchSeq w cs with | some r => f r | none => false) = true) :
    ∃ r, matchSeq w cs = some r ∧ f r = true := by
  cases hm : matchSeq w cs with
  | none => rw [hm] at h; cases h
  | some r => rw [hm] at h; exact ⟨r, rfl, h⟩

theorem p4Core_shape {cs : List Char} (h : p4Core cs = true) :
    ∃ c d r, cs = c :: d :: r ∧
      ((c = 's' ∨ c = 'S') ∧ (d = 'e' ∨ d = 'E') ∨
       (c = 'a' ∨ c = 'A') ∧ (d = 'r' ∨ d = 'R') ∨
       (c = 'c' ∨ c = 'C') ∧ (d = 'h' ∨ d = 'H') ∨
       (c = 'p' ∨ c = 'P') ∧ (d = 'a' ∨ d = 'A')) := by
  simp only [p4Core, List.any_cons, List.any_nil, Bool.or_eq_true, Bool.or_false] at h
  rcases h with h | h | h | h
  · obtain ⟨r0, hm, _⟩ := matchTail_eq_true h
    obtain ⟨c, cs1, rfl, hc, hm1⟩ := matchSeq_cons hm
    obtain ⟨d, cs2, rfl, hd, _⟩ := matchSeq_cons hm1
    exact ⟨c, d, cs2, rfl, Or.inl ⟨by simpa using hc, by simpa using hd⟩⟩
  · obtain ⟨r0, hm, _⟩ := matchTail_eq_true h
    obtain ⟨c, cs1, rfl, hc, hm1⟩ := matchSeq_cons hm
    obtain ⟨d, cs2, rfl, hd, _⟩ := matchSeq_cons hm1
    exact ⟨c, d, cs2, rfl, Or.inr (Or.inl ⟨by simpa using hc, by simpa using hd⟩)⟩
  · obtain ⟨r0, hm, _⟩ := matchTail_eq_true h
    obtain ⟨c, cs1, rfl, hc, hm1⟩ := matchSeq_cons hm
    obtain ⟨d, cs2, rfl, hd, _⟩ := matchSeq_cons hm1
    exact ⟨c, d, cs2, rfl, Or.inr (Or.inr (Or.inl ⟨by simpa using hc, by simpa using hd⟩))⟩
  · obtain ⟨r0, hm, _⟩ := matchTail_eq_true h
    obtain ⟨c, cs1, rfl, hc, hm1⟩ := matchSeq_cons hm
    obtain ⟨d, cs2, rfl, hd, _⟩ := matchSeq_cons hm1
    exact ⟨c, d, cs2, rfl, Or.inr (Or.inr (Or.inr ⟨by simpa using hc, by simpa using hd⟩))⟩

theorem p5Core_shape {cs : List Char} (h : p5Core cs = true) :
    ∃ c d r, cs = c :: d :: r ∧
      (c = 'A' ∧ d = 'R' ∨ c = 'S' ∧ d = 'E' ∨ c = 'C' ∧ d = 'H' ∨ c = 'P' ∧ d = 'A') := by
  simp only [p5Core, List.any_cons, List.any_nil, Bool.or_eq_true, Bool.or_false] at h
  rcases h with h | h | h | h
  · obtain ⟨r0, hm, _⟩ := matchTail_eq_true h
    obtain ⟨c, cs1, rfl, hc, hm1⟩ := matchSeq_cons hm
    obtain ⟨d, cs2, rfl, hd, _⟩ := matchSeq_cons hm1
    exact ⟨c, d, cs2, rfl, Or.inl ⟨by simpa using hc, by simpa using hd⟩⟩
  · obtain ⟨r0, hm, _⟩ := matchTail_eq_true h
    obtain ⟨c, cs1, rfl, hc, hm1⟩ := matchSeq_cons hm
    obtain ⟨d, cs2, rfl, hd, _⟩ := matchSeq_cons hm1
    exact ⟨c, d, cs2, rfl, Or.inr (Or.inl ⟨by simpa using hc, by simpa using hd⟩)⟩
  · obtain ⟨r0, hm, _⟩ := matchTail_eq_true h
    obtain ⟨c, cs1, rfl, hc, hm1⟩ := matchSeq_cons hm
    obtain ⟨d, cs2, rfl, hd, _⟩ := matchSeq_cons hm1
    exact ⟨c, d, cs2, rfl, Or.inr (Or.inr (Or.inl ⟨by simpa using hc, by simpa using hd⟩))⟩
  · obtain ⟨r0, hm, _⟩ := matchTail_eq_true h
    obtain ⟨c, cs1, rfl, hc, hm1⟩ := matchSeq_cons hm
    obtain ⟨d, cs2, rfl, hd, _⟩ := matchSeq_cons hm1
    exact ⟨c, d, cs2, rfl, Or.inr (Or.inr (Or.inr ⟨by simpa using hc, by simpa using hd⟩))⟩

theorem isRomanChar_not_digit {c : Char} (h : isRomanChar c = true) :
    isDigitChar c = false := by
  simp only [isRomanChar, Bool.or_eq_true, decide_eq_true_eq] at h
  rcases h with ((((((rfl | rfl) | rfl) | rfl) | rfl) | rfl) | rfl) <;> decide

theorem digit_not_upper {c : Char} (hd : isDigitChar c = true)
    (hu : isUpperChar c = true) : False := by
  simp only [isDigitChar, Bool.and_eq_true, decide_eq_true_eq] at hd
  simp only [isUpperChar, Bool.and_eq_true, decide_eq_true_eq] at hu
  exact absurd (le_trans hu.1 hd.2) (by decide)

/-! Pairwise impossibility of co-matches that could push the maximum
confidence above the first match's: the only texts matching two patterns
are covered by (pattern 2 ∧ pattern 3), where the first match already has
the larger weight, and (pattern 4 ∧ pattern 5), of equal weight. -/

theorem p1_p2_disj {u : List Char} (h1 : p1Core u = true) (h2 : p2Core u = true) :
    False := by
  obtain ⟨c, r, rfl, hc, _⟩ := p1Core_head h1
  obtain ⟨c', d, r', he, hrom, _⟩ := p2Core_shape h2
  injection he with hh ht
  subst hh
  rw [isRomanChar_not_digit hrom] at hc
  cases hc

theorem p1_p3_disj {u : List Char} (h1 : p1Core u = true) (h3 : p3Core u = true) :
    False := by
  obtain ⟨c, r, rfl, hc, _⟩ := p1Core_head h1
  obtain ⟨c', d, r', he, hup, _⟩ := p3Core_shape h3
  injection he with hh ht
  subst hh
  exact digit_not_upper hc hup

theorem p1_p4_disj {u : List Char} (h1 : p1Core u = true) (h4 : p4Core u = true) :
    False := by
  obtain ⟨c, r, rfl, hc, _⟩ := p1Core_head h1
  obtain ⟨c', d, r', he, hcase⟩ := p4Core_shape h4
  injection he with hh ht
  subst hh
  rcases hcase with ⟨hw, _⟩ | ⟨hw, _⟩ | ⟨hw, _⟩ | ⟨hw, _⟩ <;>
    rcases hw with rfl | rfl <;> exact absurd hc (by decide)

theorem p1_p5_disj {u : List Char} (h1 : p1Core u = true) (h5 : p5Core u = true) :
    False := by
  obtain ⟨c, r, rfl, hc, _⟩ := p1Core_head h1
  obtain ⟨c', d, r', he, hcase⟩ := p5Core_shape h5
  injection he with hh ht
  subst hh
  rcases hcase with ⟨rfl, _⟩ | ⟨rfl, _⟩ | ⟨rfl, _⟩ | ⟨rfl, _⟩ <;> exact absurd hc (by decide)

theorem p2_p4_disj {u : List Char} (h2 : p2Core u = true) (h4 : p4Core u = true) :
    False := by
  obtain ⟨c, d, r, rfl, hrom, hd2⟩ := p2Core_shape h2
  obtain ⟨c', d', r', he, hcase⟩ := p4Core_shape h4
  injection he with hh ht
  injection ht with hd ht'
  subst hh
  subst hd
  rcases hcase with ⟨hw, _⟩ | ⟨hw, _⟩ | ⟨hw, hx⟩ | ⟨hw, _⟩
  · rcases hw with rfl | rfl <;> exact absurd hrom (by decide)
  · rcases hw with rfl | rfl <;> exact absurd hrom (by decide)
  · rcases hw with rfl | rfl
    · exact absurd hrom (by decide)
    · rcases hx with rfl | rfl <;>
        rcases hd2 with hr | hr <;> exact absurd hr (by decide)
  · rcases hw with rfl | rfl <;> exact absurd hrom (by decide)

theorem p2_p5_disj {u : List Char} (h2 : p2Core u = true) (h5 : p5Core u = true) :
    False := by
  obtain ⟨c, d, r, rfl, hrom, hd2⟩ := p2Core_shape h2
  obtain ⟨c', d', r', he, hcase⟩ := p5Core_shape h5
  injection he with hh ht
  injection ht with hd ht'
  subst hh
  subst hd
  rcases hcase with ⟨rfl, _⟩ | ⟨rfl, _⟩ | ⟨rfl, rfl⟩ | ⟨rfl, _⟩
  · exact absurd hrom (by decide)
  · exact absurd hrom (by decide)
  · rcases hd2 with hr | hr <;> exact absurd hr (by decide)
  · exact absurd hrom (by decide)

theorem p3_p4_disj {u : List Char} (h3 : p3Core u = true) (h4 : p4Core u = true) :
    False := by
  obtain ⟨c, d, r, rfl, _, rfl⟩ := p3Core_shape h3
  obtain ⟨c', d', r', he, hcase⟩ := p4Core_shape h4
  injection he with hh ht
  injection ht with hd ht'
  rcases hcase with ⟨_, hx⟩ | ⟨_, hx⟩ | ⟨_, hx⟩ | ⟨_, hx⟩ <;>
    rcases hx with hx | hx <;> rw [← hd] at hx <;> exact absurd hx (by decide)

theorem p3_p5_disj {u : List Char} (h3 : p3Core u = true) (h5 : p5Core u = true) :
    False := by
  obtain ⟨c, d, r, rfl, _, rfl⟩ := p3Core_shape h3
  obtain ⟨c', d', r', he, hcase⟩ := p5Core_shape h5
  injection he with hh ht
  injection ht with hd ht'
  rcases hcase with ⟨_, hx⟩ | ⟨_, hx⟩ | ⟨_, hx⟩ | ⟨_, hx⟩ <;>
    rw [← hd] at hx <;> exact absurd hx (by decide)

/-! Relating `dot_match`'s digit/dot munch to the number of numeric
groups, for level inference. -/

theorem digit_dotClass {c : Char} (h : isDigitChar c = true) :
    isDotClassChar c = true := by
  simp [isDotClassChar, h]

theorem digit_ne_dot {c : Char} (h : isDigitChar c = true) : c ≠ '.' := by
  intro he
  subst he
  exact absurd h (by decide)

theorem ws_not_dotClass {c : Char} (h : isWsChar c = true) :
    isDotClassChar c = false := by
  simp only [isWsChar, Bool.or_eq_true, decide_eq_true_eq] at h
  rcases h with (((((rfl | rfl) | rfl) | rfl) | rfl) | rfl) <;> decide

theorem roman_not_dotClass {c : Char} (h : isRomanChar c = true) :
    isDotClassChar c = false := by
  simp only [isRomanChar, Bool.or_eq_true, decide_eq_true_eq] at h
  rcases h with ((((((rfl | rfl) | rfl) | rfl) | rfl) | rfl) | rfl) <;> decide

theorem upper_not_dotClass {c : Char} (h : isUpperChar c = true) :
    isDotClassChar c = false := by
  cases hd : isDigitChar c with
  | true => exact (digit_not_upper hd h).elim
  | false =>
    by_cases he : c = '.'
    · subst he; exact absurd h (by decide)
    · simp [isDotClassChar, hd, he]

theorem p1Scan_true_decomp : ∀ cs : List Char, p1Scan cs true = true →
    ∃ ds rest, cs = ds ++ '.' :: rest ∧ (∀ c ∈ ds, isDigitChar c = true) ∧
      p1Scan rest false = true := by
  intro cs
  induction cs with
  | nil => intro h; simp [p1Scan] at h
  | cons c cs ih =>
    intro h
    by_cases hd : isDigitChar c = true
    · simp only [p1Scan, hd, if_true] at h
      obtain ⟨ds, rest, rfl, hds, hrest⟩ := ih h
      refine ⟨c :: ds, rest, rfl, ?_, hrest⟩
      intro x hx
      rcases List.mem_cons.mp hx with rfl | hx'
      · exact hd
      · exact hds x hx'
    · by_cases hdd : c = '.'
      · subst hdd
        simp only [p1Scan] at h
        rw [if_neg (by simpa using hd)] at h
        simp at h
        exact ⟨[], cs, rfl, by simp, h⟩
      · simp [p1Scan, hd, hdd] at h

theorem takeWhile_append_all {p : Char → Bool} {l2 : List Char} :
    ∀ l1 : List Char, (∀ c ∈ l1, p c = true) →
      (l1 ++ l2).takeWhile p = l1 ++ l2.takeWhile p := by
  intro l1
  induction l1 with
  | nil => intro _; simp
  | cons c l ih =>
    intro h
    rw [List.cons_append, List.takeWhile_cons_of_pos (h c (List.mem_cons_self _ _)),
      ih (fun x hx => h x (List.mem_cons_of_mem _ hx)), List.cons_append]

theorem dropWhile_append_ne_nil {p : Char → Bool} {l2 : List Char} :
    ∀ l1 : List Char, l1.dropWhile p ≠ [] →
      (l1 ++ l2).dropWhile p = l1.dropWhile p ++ l2 := by
  intro l1
  induction l1 with
  | nil => intro h; exact absurd rfl h
  | cons c l ih =>
    intro h
    by_cases hc : p c = true
    · rw [List.cons_append, List.dropWhile_cons_of_pos hc, List.dropWhile_cons_of_pos hc,
        ih (by rwa [List.dropWhile_cons_of_pos hc] at h)]
    · rw [List.cons_append, List.dropWhile_cons_of_neg hc, List.dropWhile_cons_of_neg hc]
      rfl

theorem rstripDots_append {l1 l2 : List Char} (h : rstripDots l2 ≠ []) :
    rstripDots (l1 ++ l2) = l1 ++ rstripDots l2 := by
  unfold rstripDots at *
  have h2 : l2.reverse.dropWhile (fun c => c = '.') ≠ [] := by
    intro hc
    exact h (by rw [hc]; rfl)
  rw [List.reverse_append, dropWhile_append_ne_nil _ h2, List.reverse_append,
    List.reverse_reverse]

theorem rstripDots_all_digits_dot {ds : List Char}
    (h : ∀ c ∈ ds, isDigitChar c = true) : rstripDots (ds ++ ['.']) = ds := by
  unfold rstripDots
  rw [List.reverse_append]
  have h1 : (['.'] : List Char).reverse ++ ds.reverse = '.' :: ds.reverse := rfl
  rw [h1, List.dropWhile_cons_of_pos (by decide)]
  cases hds : ds.reverse with
  | nil =>
    rw [List.dropWhile_nil]
    simpa using (List.reverse_eq_nil_iff.mp hds).symm
  | cons x xs =>
    have hxds : x ∈ ds := by
      rw [← List.mem_reverse, hds]
      exact List.mem_cons_self _ _
    rw [List.dropWhile_cons_of_neg (by simpa using digit_ne_dot (h x hxds)), ← hds,
      List.reverse_reverse]

theorem rstripDots_cons_digit_ne_nil {c : Char} {l : List Char}
    (h : isDigitChar c = true) : rstripDots (c :: l) ≠ [] := by
  unfold rstripDots
  intro hc
  rw [List.reverse_eq_nil_iff, List.dropWhile_eq_nil_iff] at hc
  have hcc := hc c (by simp)
  exact digit_ne_dot h (by simpa using hcc)

theorem countGroupsGo_digits {rest : List Char} :
    ∀ ds : List Char, (∀ c ∈ ds, isDigitChar c = true) →
      countGroupsGo (ds ++ '.' :: rest) true = countGroupsGo rest false + 1 := by
  intro ds
  induction ds with
  | nil =>
    intro _
    show countGroupsGo ('.' :: rest) true = _
    simp only [countGroupsGo]
    rw [if_neg (by decide)]
    simp
  | cons c ds ih =>
    intro h
    have hc := h c (List.mem_cons_self _ _)
    rw [List.cons_append]
    simp only [countGroupsGo, hc, if_true]
    exact ih (fun x hx => h x (List.mem_cons_of_mem _ hx))

theorem countP_digits_zero {ds : List Char} (h : ∀ c ∈ ds, isDigitChar c = true) :
    ds.countP (fun c => c = '.') = 0 :=
  List.countP_eq_zero.mpr (fun c hc => by simpa using digit_ne_dot (h c hc))

theorem munch_groups : ∀ n, ∀ u : List Char, u.length ≤ n → p1Core u = true →
    u.takeWhile isDotClassChar ≠ [] ∧
    (rstripDots (u.takeWhile isDotClassChar)).countP (fun c => c = '.') + 1 =
      countGroups u := by
  intro n
  induction n with
  | zero =>
    intro u hlen h
    have hu : u = [] := List.length_eq_zero.mp (Nat.le_zero.mp hlen)
    subst hu
    simp [p1Core] at h
  | succ n ih =>
    intro u hlen h
    obtain ⟨c, u1, rfl, hc, hscan⟩ := p1Core_head h
    obtain ⟨ds, rest, rfl, hds, hrest⟩ := p1Scan_true_decomp u1 hscan
    have hdgs : ∀ x ∈ c :: ds, isDigitChar x = true := by
      intro x hx
      rcases List.mem_cons.mp hx with rfl | hx'
      · exact hc
      · exact hds x hx'
    have hshape : c :: (ds ++ '.' :: rest) = (c :: ds) ++ '.' :: rest := rfl
    have hmunch : (c :: (ds ++ '.' :: rest)).takeWhile isDotClassChar
        = (c :: ds) ++ '.' :: rest.takeWhile isDotClassChar := by
      rw [hshape, takeWhile_append_all (c :: ds) (fun x hx => digit_dotClass (hdgs x hx)),
        List.takeWhile_cons_of_pos (by decide)]
    have hcount : countGroups (c :: (ds ++ '.' :: rest)) = countGroups rest + 1 := by
      show countGroupsGo _ false = _
      simp only [countGroupsGo, hc, if_true]
      exact countGroupsGo_digits ds hds
    refine ⟨by rw [hmunch]; simp, ?_⟩
    rw [hcount, hmunch]
    cases rest with
    | nil => simp [p1Scan] at hrest
    | cons e rest' =>
      by_cases he : isDigitChar e = true
      · have hscan' : p1Scan rest' true = true := by
          simpa [p1Scan, he] using hrest
        have hp1 : p1Core (e :: rest') = true := by simp [p1Core, he, hscan']
        have hlen' : (e :: rest').length ≤ n := by
          simp only [List.length_cons, List.length_append] at hlen ⊢
          omega
        obtain ⟨hm_ne, hm_eq⟩ := ih (e :: rest') hlen' hp1
        have hm_cons : (e :: rest').takeWhile isDotClassChar
            = e :: rest'.takeWhile isDotClassChar :=
          List.takeWhile_cons_of_pos (digit_dotClass he)
        have hrne : rstripDots ((e :: rest').takeWhile isDotClassChar) ≠ [] := by
          rw [hm_cons]
          exact rstripDots_cons_digit_ne_nil he
        have hsplit : c :: ds ++ '.' :: (e :: rest').takeWhile isDotClassChar
            = ((c :: ds) ++ ['.']) ++ (e :: rest').takeWhile isDotClassChar := by
          simp
        rw [hsplit, rstripDots_append hrne, List.countP_append]
        have hz : ((c :: ds) ++ ['.']).countP (fun x => x = '.') = 1 := by
          rw [List.countP_append, countP_digits_zero hdgs]
          decide
        rw [hz]
        omega
      · have hws : wsThenNonWs (e :: rest') = true := by
          simpa [p1Scan, he] using hrest
        have hews : isWsChar e = true := by
          simp only [wsThenNonWs, Bool.and_eq_true] at hws
          exact hws.1
        have hm0 : (e :: rest').takeWhile isDotClassChar = [] :=
          List.takeWhile_cons_of_neg (by simp [ws_not_dotClass hews])
        have hg0 : countGroups (e :: rest') = 0 := by
          simp [countGroups, countGroupsGo, he]
        rw [hm0, hg0, rstripDots_all_digits_dot hdgs, countP_digits_zero hdgs]

theorem dotLevel_of_p1Match {t : List Char} (h : p1Match t = true) :
    dotLevel t = min (countGroups (t.dropWhile isWsChar)) 4 := by
  obtain ⟨hne, heq⟩ :=
    munch_groups (t.dropWhile isWsChar).length (t.dropWhile isWsChar) le_rfl h
  simp only [dotLevel, dotMunch]
  rw [if_neg hne, heq]

theorem dotLevel_eq_one {t : List Char} {c : Char} {r : List Char}
    (hu : t.dropWhile isWsChar = c :: r) (hc : isDotClassChar c = false) :
    dotLevel t = 1 := by
  simp only [dotLevel, dotMunch, hu,
    List.takeWhile_cons_of_neg (by simp [hc] : ¬isDotClassChar c = true)]
  simp

/-- C8: for every text matching at least one structural pattern, the
pattern loop's resulting confidence equals the maximum confidence weight
over ALL matching patterns — despite the `break`, because a
later-listed pattern of higher weight never co-matches an earlier one
(the only overlaps are pattern 2 ⊃ pattern 3 and pattern 4 ⊇ pattern 5) —
and the inferred level comes from the first matching pattern in priority
order: the numbered-outline's count of numeric groups capped at 4 when
pattern 1 matches, and 1 otherwise. -/
theorem pattern_scan_spec (s : String)
    (h : (SECTION_PATTERNS.any fun pc => pc.1 s.data) = true) :
    (patternScan s.data).1 = maxMatchedConf s.data ∧
    (patternScan s.data).2 =
      (if p1Match s.data then min (countGroups (s.data.dropWhile isWsChar)) 4 else 1) := by
  cases h1 : p1Match s.data with
  | true =>
    have h2 : p2Match s.data = false := by
      cases h2 : p2Match s.data
      · rfl
      · exact (p1_p2_disj h1 h2).elim
    have h3 : p3Match s.data = false := by
      cases h3 : p3Match s.data
      · rfl
      · exact (p1_p3_disj h1 h3).elim
    have h4 : p4Match s.data = false := by
      cases h4 : p4Match s.data
      · rfl
      · exact (p1_p4_disj h1 h4).elim
    have h5 : p5Match s.data = false := by
      cases h5 : p5Match s.data
      · rfl
      · exact (p1_p5_disj h1 h5).elim
    have hps : patternScan s.data = (90, dotLevel s.data) := by
      simp [patternScan, SECTION_PATTERNS, h1]
    have hmx : maxMatchedConf s.data = 90 := by
      simp [maxMatchedConf, SECTION_PATTERNS, h1, h2, h3, h4, h5]
    rw [hps, hmx, if_pos rfl]
    exact ⟨rfl, dotLevel_of_p1Match h1⟩
  | false =>
    cases h2 : p2Match s.data with
    | true =>
      have h4 : p4Match s.data = false := by
        cases h4 : p4Match s.data
        · rfl
        · exact (p2_p4_disj h2 h4).elim
      have h5 : p5Match s.data = false := by
        cases h5 : p5Match s.data
        · rfl
        · exact (p2_p5_disj h2 h5).elim
      have hps : patternScan s.data = (85, dotLevel s.data) := by
        simp [patternScan, SECTION_PATTERNS, h1, h2]
      have hlvl : dotLevel s.data = 1 := by
        obtain ⟨c, d, r, hu, hrom, _⟩ := p2Core_shape h2
        exact dotLevel_eq_one hu (roman_not_dotClass hrom)
      cases h3 : p3Match s.data with
      | true =>
        have hmx : maxMatchedConf s.data = 85 := by
          simp [maxMatchedConf, SECTION_PATTERNS, h1, h2, h3, h4, h5]
        rw [hps, hmx, if_neg (by simp), hlvl]
        exact ⟨rfl, rfl⟩
      | false =>
        have hmx : maxMatchedConf s.data = 85 := by
          simp [maxMatchedConf, SECTION_PATTERNS, h1, h2, h3, h4, h5]
        rw [hps, hmx, if_neg (by simp), hlvl]
        exact ⟨rfl, rfl⟩
    | false =>
      cases h3 : p3Match s.data with
      | true =>
        have h4 : p4Match s.data = false := by
          cases h4 : p4Match s.data
          · rfl
          · exact (p3_p4_disj h3 h4).elim
        have h5 : p5Match s.data = false := by
          cases h5 : p5Match s.data
          · rfl
          · exact (p3_p5_disj h3 h5).elim
        have hps : patternScan s.data = (80, dotLevel s.data) := by
          simp [patternScan, SECTION_PATTERNS, h1, h2, h3]
        have hlvl : dotLevel s.data = 1 := by
          obtain ⟨c, d, r, hu, hup, _⟩ := p3Core_shape h3
          exact dotLevel_eq_one hu (upper_not_dotClass hup)
        have hmx : maxMatchedConf s.data = 80 := by
          simp [maxMatchedConf, SECTION_PATTERNS, h1, h2, h3, h4, h5]
        rw [hps, hmx, if_neg (by simp), hlvl]
        exact ⟨rfl, rfl⟩
      | false =>
        cases h4 : p4Match s.data with
        | true =>
          have hps : patternScan s.data = (95, dotLevel s.data) := by
            simp [patternScan, SECTION_PATTERNS, h1, h2, h3, h4]
          have hlvl : dotLevel s.data = 1 := by
            obtain ⟨c, d, r, hu, hcase⟩ := p4Core_shape h4
            rcases hcase with ⟨hw, _⟩ | ⟨hw, _⟩ | ⟨hw, _⟩ | ⟨hw, _⟩ <;>
              rcases hw with rfl | rfl <;> exact dotLevel_eq_one hu (by decide)
          cases h5 : p5Match s.data with
          | true =>
            have hmx : maxMatchedConf s.data = 95 := by
              simp [maxMatchedConf, SECTION_PATTERNS, h1, h2, h3, h4, h5]
            rw [hps, hmx, if_neg (by simp), hlvl]
            exact ⟨rfl, rfl⟩
          | false =>
            have hmx : maxMatchedConf s.data = 95 := by
              simp [maxMatchedConf, SECTION_PATTERNS, h1, h2, h3, h4, h5]
            rw [hps, hmx, if_neg (by simp), hlvl]
            exact ⟨rfl, rfl⟩
        | false =>
          cases h5 : p5Match s.data with
          | true =>
            have hps : patternScan s.data = (95, dotLevel s.data) := by
              simp [patternScan, SECTION_PATTERNS, h1, h2, h3, h4, h5]
            have hlvl : dotLevel s.data = 1 := by
              obtain ⟨c, d, r, hu, hcase⟩ := p5Core_shape h5
              rcases hcase with ⟨rfl, _⟩ | ⟨rfl, _⟩ | ⟨rfl, _⟩ | ⟨rfl, _⟩ <;>
                exact dotLevel_eq_one hu (by decide)
            have hmx : maxMatchedConf s.data = 95 := by
              simp [maxMatchedConf, SECTION_PATTERNS, h1, h2, h3, h4, h5]
            rw [hps, hmx, if_neg (by simp), hlvl]
            exact ⟨rfl, rfl⟩
          | false =>
            exact absurd h (by simp [SECTION_PATTERNS, h1, h2, h3, h4, h5])

/-- Witness for `pattern_scan_spec` at `"1.2. Foo"` (first match pattern 1,
confidence 90, two numeric groups). -/
theorem pattern_scan_spec_witness :
    (patternScan "1.2. Foo".data).1 = maxMatchedConf "1.2. Foo".data ∧
    (patternScan "1.2. Foo".data).2 =
      (if p1Match "1.2. Foo".data
        then min (countGroups ("1.2. Foo".data.dropWhile isWsChar)) 4 else 1) :=
  pattern_scan_spec "1.2. Foo" (by decide)

end DocChunk
